import Mathlib

/-!
Verification of the securetar library (`securetar/__init__.py`): a tarfile
fileobj handler for encrypted files.  The development shallowly embeds the
relevant parts of the code: byte streams are `List Nat`, machine-level I/O is
explicit state passing, and the external collaborators (AES block encryption,
SHA-256, the tarfile container library) are modelled at the interface
granularity the code uses them at.
-/

namespace Securetar

/-! ## POSIX pure-path model

The code manipulates `pathlib.PurePath` / `pathlib.Path` values.  A PurePath
is modelled by its `parts` tuple: a list of segments where an absolute path
carries the root marker "/" as its first element (exactly as CPython's
`PurePosixPath.parts` does).  Parsing a string drops empty and "." segments.
-/

/-- Split a character list on the separator character, CPython-style: the
result always has at least one (possibly empty) segment. -/
def segsOfChars : List Char → List (List Char)
  | [] => [[]]
  | c :: cs =>
    if c = '/' then [] :: segsOfChars cs
    else
      match segsOfChars cs with
      | [] => [[c]]
      | seg :: rest => (c :: seg) :: rest

/-- Whether a name denotes an absolute POSIX path (leading separator). -/
def isAbsoluteName (s : String) : Bool :=
  match s.data with
  | c :: _ => c == '/'
  | [] => false

/-- The `parts` of `PurePosixPath(s)`: empty and "." segments are dropped and
an absolute path carries "/" as its first part. -/
def pathParts (s : String) : List String :=
  let segs := (segsOfChars s.data).map String.mk
  let core := segs.filter fun seg => !(seg == "") && !(seg == ".")
  if isAbsoluteName s then "/" :: core else core

/-- Render a parts list back to a string, as `PurePath.as_posix` does. -/
def asPosix (parts : List String) : String :=
  match parts with
  | [] => "."
  | "/" :: rest => "/" ++ String.intercalate "/" rest
  | ps => String.intercalate "/" ps

/-- The parts of `PurePath(a, b)`: an absolute second argument resets the
path, otherwise the parts concatenate. -/
def purePathJoin (a b : List String) : List String :=
  if b.head? = some "/" then b else a ++ b

/-! ## Shell-style glob matching (`fnmatch.fnmatchcase`)

`PurePath.match` compares path segments with shell-style globbing.  The
pattern is first tokenized (literal, `?`, `*`, `[...]` classes with optional
`!` negation and ranges), then matched against the segment characters. -/

/-- One token of a glob pattern. -/
inductive GlobTok where
  | lit (c : Char)
  | anyChar
  | anySeq
  | cls (neg : Bool) (items : List (Char × Char))
deriving DecidableEq

/-- Parse the items of a bracket class up to the closing bracket; `none` if
the class is never closed (in which case the opening bracket is literal).
A single character `c` is represented by the range `(c, c)`. -/
def clsItems : List Char → Option (List (Char × Char) × List Char)
  | [] => none
  | ']' :: rest => some ([], rest)
  | a :: '-' :: ']' :: rest => some ([(a, a), ('-', '-')], rest)
  | a :: '-' :: b :: rest =>
    match clsItems rest with
    | none => none
    | some (items, rem) => some ((a, b) :: items, rem)
  | a :: rest =>
    match clsItems rest with
    | none => none
    | some (items, rem) => some ((a, a) :: items, rem)

/-- Tokenize a glob pattern; the fuel is an upper bound on the number of
tokens and is never exhausted when it is at least the character count. -/
def tokenizeGlob : Nat → List Char → List GlobTok
  | 0, _ => []
  | _, [] => []
  | fuel + 1, cs =>
    match cs with
    | [] => []
    | '*' :: rest => GlobTok.anySeq :: tokenizeGlob fuel rest
    | '?' :: rest => GlobTok.anyChar :: tokenizeGlob fuel rest
    | '[' :: rest =>
      let negRest : Bool × List Char :=
        match rest with
        | '!' :: r => (true, r)
        | _ => (false, rest)
      let firstRest : List (Char × Char) × List Char :=
        match negRest.2 with
        | ']' :: r => ([(']', ']')], r)
        | r => ([], r)
      match clsItems firstRest.2 with
      | none => GlobTok.lit '[' :: tokenizeGlob fuel rest
      | some (items, rem) =>
        GlobTok.cls negRest.1 (firstRest.1 ++ items) :: tokenizeGlob fuel rem
    | c :: rest => GlobTok.lit c :: tokenizeGlob fuel rest

/-- Whether a character falls in one of the class ranges. -/
def inClsItems (items : List (Char × Char)) (c : Char) : Bool :=
  items.any fun p => p.1 ≤ c && c ≤ p.2

/-- Match a token list against a character list; the fuel is an upper bound
on the number of recursion steps (token count + character count + 1). -/
def tokMatch : Nat → List GlobTok → List Char → Bool
  | 0, _, _ => false
  | _ + 1, [], [] => true
  | _ + 1, [], _ :: _ => false
  | fuel + 1, GlobTok.anySeq :: ps, [] => tokMatch fuel ps []
  | fuel + 1, GlobTok.anySeq :: ps, c :: ss =>
    tokMatch fuel ps (c :: ss) || tokMatch fuel (GlobTok.anySeq :: ps) ss
  | fuel + 1, GlobTok.anyChar :: ps, _ :: ss => tokMatch fuel ps ss
  | _ + 1, GlobTok.anyChar :: _, [] => false
  | fuel + 1, GlobTok.lit a :: ps, c :: ss => a == c && tokMatch fuel ps ss
  | _ + 1, GlobTok.lit _ :: _, [] => false
  | fuel + 1, GlobTok.cls neg items :: ps, c :: ss =>
    (neg != inClsItems items c) && tokMatch fuel ps ss
  | _ + 1, GlobTok.cls _ _ :: _, [] => false

/-- Model of `fnmatch.fnmatchcase`: shell-style glob match of one segment. -/
def fnmatchcase (s : String) (pat : String) : Bool :=
  let toks := tokenizeGlob pat.data.length pat.data
  tokMatch (toks.length + s.data.length + 1) toks s.data

/-- Model of `PurePath.match`: an empty pattern is invalid (CPython raises
`ValueError`, modelled as a non-match), an absolute pattern must match the
whole path, a relative pattern matches a suffix of the path's parts. -/
def pathMatch (path : List String) (pattern : String) : Bool :=
  let patParts := pathParts pattern
  if patParts.isEmpty then false
  else if patParts.length > path.length then false
  else if patParts.head? = some "/" && patParts.length ≠ path.length then false
  else
    ((path.drop (path.length - patParts.length)).zip patParts).all
      fun pq => fnmatchcase pq.1 pq.2

/-! ## The exclusion filter (`_is_excluded_by_filter`) -/

/-- Model of `_is_excluded_by_filter`: walk the exclusion list in order and
return `true` on the first pattern the path glob-matches. -/
def _is_excluded_by_filter (path : List String) (excludeList : List String) : Bool :=
  match excludeList with
  | [] => false
  | exclude :: rest =>
    if !(pathMatch path exclude) then _is_excluded_by_filter path rest
    else true

/-! ## The path safety filter (`secure_path`) -/

/-- A tar member as `secure_path` sees it: only the name is inspected. -/
structure TarMember where
  name : String
deriving DecidableEq

/-- One step of lexical path resolution below the root: ".." pops the last
resolved segment (clamping at the root), anything else is appended.  This is
what `Path.resolve()` computes when no component exists on disk (no symbolic
links to follow), as is the case under the synthetic anchor "/fake". -/
def resolveStep (stack : List String) (seg : String) : List String :=
  if seg = ".." then stack.dropLast else stack ++ [seg]

/-- Lexical resolution of a sequence of (root-relative) path segments. -/
def resolveParts (parts : List String) : List String :=
  parts.foldl resolveStep []

/-- Whether `secure_path` yields a member with the given name: absolute names
raise and are dropped; otherwise the name is joined under the anchor
"/fake", resolved, and kept only when `relative_to("/fake")` succeeds, i.e.
when the resolved path is still at or below the anchor. -/
def securePathKeep (name : String) : Bool :=
  let fileParts := pathParts name
  if fileParts.head? = some "/" then false
  else
    match resolveParts ("fake" :: fileParts) with
    | "fake" :: _ => true
    | _ => false

/-- Model of `secure_path`: the generator yields, in order, exactly the
members whose names pass the safety check; a rejected member is skipped and
iteration continues. -/
def secure_path (members : List TarMember) : List TarMember :=
  match members with
  | [] => []
  | m :: rest =>
    if securePathKeep m.name then m :: secure_path rest
    else secure_path rest

/-- Whether a name contains a ".." path segment. -/
def hasDotDotSegment (name : String) : Bool :=
  (pathParts name).contains ".."

/-! ## IV derivation (`_generate_iv`)

The cryptographic hash (SHA-256 in the code, an external primitive) is a
parameter; the code's contribution is the iteration scheme and truncation. -/

/-- The loop body of `_generate_iv`: apply the hash `n` times to the running
digest. -/
def generateIvRounds (hash : List Nat → List Nat) : Nat → List Nat → List Nat
  | 0, x => x
  | n + 1, x => generateIvRounds hash n (hash x)

/-- Model of `_generate_iv`: start from `key ++ salt`, hash 100 times, keep
the first 16 bytes. -/
def _generate_iv (hash : List Nat → List Nat) (key salt : List Nat) : List Nat :=
  (generateIvRounds hash 100 (key ++ salt)).take 16

/-! ## Cipher stream adapter (`SecureTarFile.write`)

AES-CBC is modelled with the single-block encryption function as a parameter
(the external primitive); the chaining, the partial-block buffering of
`CipherContext.update`, and the per-call PKCS#7 padding of
`SecureTarFile.write` are modelled explicitly. -/

/-- Byte-wise xor of two equal-length blocks. -/
def xorBytes (a b : List Nat) : List Nat :=
  (a.zip b).map fun p => p.1 ^^^ p.2

/-- State of a CBC cipher context: the current chaining vector and the
buffered partial block that `update` has not yet consumed. -/
structure EncState where
  chain : List Nat
  pending : List Nat
deriving DecidableEq

/-- Process as many full 16-byte blocks of `buf` as possible in CBC mode,
returning the new chaining vector, the ciphertext, and the leftover partial
block.  The fuel is an upper bound on the number of blocks and is never
exhausted when it is at least `buf.length`. -/
def cbcUpdateAux (blockEnc : List Nat → List Nat) :
    Nat → List Nat → List Nat → List Nat × List Nat × List Nat
  | 0, chain, buf => (chain, [], buf)
  | fuel + 1, chain, buf =>
    if buf.length < 16 then (chain, [], buf)
    else
      let ct := blockEnc (xorBytes (buf.take 16) chain)
      let r := cbcUpdateAux blockEnc fuel ct (buf.drop 16)
      (r.1, ct ++ r.2.1, r.2.2)

/-- Model of `CipherContext.update`: append the new data to the pending
buffer, emit ciphertext for every complete block, keep the remainder. -/
def cipherUpdate (blockEnc : List Nat → List Nat) (st : EncState) (data : List Nat) :
    EncState × List Nat :=
  let buf := st.pending ++ data
  let r := cbcUpdateAux blockEnc buf.length st.chain buf
  ({ chain := r.1, pending := r.2.2 }, r.2.1)

/-- PKCS#7 padding to the 16-byte block size: append `16 - len % 16` bytes,
each holding that count. -/
def pkcs7Pad (data : List Nat) : List Nat :=
  let n := 16 - data.length % 16
  data ++ List.replicate n n

/-- Model of `SecureTarFile.write`: pad the chunk (only when its length is
not a multiple of the block size), encrypt it, and append the ciphertext to
the sink.  Returns the updated cipher state and sink contents. -/
def SecureTarFile.write (blockEnc : List Nat → List Nat) (st : EncState)
    (file data : List Nat) : EncState × List Nat :=
  let padded := if data.length % 16 ≠ 0 then pkcs7Pad data else data
  let r := cipherUpdate blockEnc st padded
  (r.1, file ++ r.2)

/-! ## Session lifecycle (`__enter__` / `__exit__`)

The handles a session may hold are modelled as optional handle identifiers;
`__exit__` emits the close calls it performs as an event list. -/

/-- A close call performed by `__exit__`. -/
inductive CloseEvent where
  | closeTar (h : Nat)
  | closeFile (h : Nat)
deriving DecidableEq

/-- Whether an event is a container-handle close. -/
def CloseEvent.isTarClose : CloseEvent → Bool
  | .closeTar _ => true
  | .closeFile _ => false

/-- The session state `__exit__` operates on: the container handle `tar`,
the raw file handle `file`, and the externally supplied sink `fileobj`
(which `__init__` stored and which is never mutated). -/
structure SessionState where
  tar : Option Nat
  file : Option Nat
  fileobj : Option Nat
deriving DecidableEq

/-- Model of `SecureTarFile.__exit__`: close the container handle first and
null it, then close the raw file handle only when no external `fileobj` was
supplied, and null it.  The exception information `exc` is ignored, as in
the code, so every exit path behaves identically. -/
def sessionExit (s : SessionState) (exc : Option Nat) : SessionState × List CloseEvent :=
  let stepTar : SessionState × List CloseEvent :=
    match s.tar with
    | some t => ({ s with tar := none }, [CloseEvent.closeTar t])
    | none => (s, [])
  let s1 := stepTar.1
  let stepFile : SessionState × List CloseEvent :=
    match s1.file with
    | some f =>
      ({ s1 with file := none },
       if s1.fileobj.isNone then [CloseEvent.closeFile f] else [])
    | none => (s1, [])
  let _ := exc
  (stepFile.1, stepTar.2 ++ stepFile.2)

/-- Model of the raw-file acquisition step of `SecureTarFile.__enter__` in
the encrypted case: reuse the external `fileobj` when one was supplied,
otherwise open a fresh OS file handle.  The boolean reports whether a new
file was opened. -/
def sessionEnterFileAcq (s : SessionState) (freshHandle : Nat) : SessionState × Bool :=
  match s.fileobj with
  | some f => ({ s with file := some f }, false)
  | none => ({ s with file := some freshHandle }, true)

/-! ## The size accessor (`SecureTarFile.size`) -/

/-- What `stat` / `is_file` report about the target path. -/
inductive PathStat where
  | missing
  | regularFile (sizeBytes : Nat)
  | directory
  | other
deriving DecidableEq

/-- Model of `Path.is_file()`: true exactly for (paths resolving to) regular
files. -/
def PathStat.isFile : PathStat → Bool
  | .regularFile _ => true
  | _ => false

/-- The `st_size` of the path; only read behind the `is_file` guard. -/
def PathStat.statSize : PathStat → Nat
  | .regularFile n => n
  | _ => 0

/-- Round-half-to-even of a rational to an integer, the rounding Python's
`round` performs. -/
def roundHalfEven (q : ℚ) : ℤ :=
  let f := ⌊q⌋
  if q - f < 1 / 2 then f
  else if q - f > 1 / 2 then f + 1
  else if f % 2 = 0 then f else f + 1

/-- Python's `round(q, 2)`: round to two decimal places. -/
def pyRound2 (q : ℚ) : ℚ :=
  (roundHalfEven (q * 100) : ℚ) / 100

/-- Model of the `SecureTarFile.size` property: 0 unless the path is a
regular file, else the byte size in mebibytes rounded to two decimals. -/
def SecureTarFile.size (st : PathStat) : ℚ :=
  if !st.isFile then 0
  else pyRound2 ((st.statSize : ℚ) / 1048576)

/-! ## Nested-archive embedding (`create_inner_tar`)

The shared raw sink is a seekable byte file: contents plus a position.  The
outer `tarfile.TarFile` is represented by its `offset` bookkeeping.  The
tarfile container library is external; `addfile` is modelled at the
granularity the code relies on: it serializes a 512-byte header whose size
field is a 12-byte octal field at byte offset 124, writes it at the current
position, and advances `offset` by the header length.  Fields of the header
other than the name and the size carry no information relevant to the claims
and are zero in the model. -/

/-- The tar block size (`tarfile.BLOCKSIZE`). -/
def BLOCKSIZE : Nat := 512

/-- A zero-filled header-sized block (`EMPTY_TAR_INFO_BLOCK`). -/
def EMPTY_TAR_INFO_BLOCK : List Nat := List.replicate BLOCKSIZE 0

/-- A seekable byte sink: file contents and current position. -/
structure Sink where
  data : List Nat
  pos : Nat
deriving DecidableEq

/-- Overwrite the bytes of `d` starting at `pos` with `bs`, extending the
file when the write runs past the end. -/
def listOverwrite (d : List Nat) (pos : Nat) (bs : List Nat) : List Nat :=
  d.take pos ++ bs ++ d.drop (pos + bs.length)

/-- Write bytes at the current position, advancing it. -/
def Sink.write (s : Sink) (bs : List Nat) : Sink :=
  { data := listOverwrite s.data s.pos bs, pos := s.pos + bs.length }

/-- Absolute seek. -/
def Sink.seek (s : Sink) (p : Nat) : Sink :=
  { s with pos := p }

/-- Read `n` bytes of the contents starting at byte `off`. -/
def readBytes (d : List Nat) (off n : Nat) : List Nat :=
  (d.drop off).take n

/-- The `offset` bookkeeping of a `tarfile.TarFile` handle. -/
structure TarState where
  offset : Nat
deriving DecidableEq

/-- A `tarfile.TarInfo` as `create_inner_tar` builds it. -/
structure TarInfo where
  name : String
  size : Nat
deriving DecidableEq

/-- Base-8 digits of `n`, least significant first (empty for 0); the fuel is
never exhausted when it is at least `n`. -/
def octDigitsAux : Nat → Nat → List Nat
  | 0, _ => []
  | fuel + 1, n => if n = 0 then [] else n % 8 :: octDigitsAux fuel (n / 8)

/-- Base-8 digits of `n`, least significant first. -/
def octDigits (n : Nat) : List Nat :=
  octDigitsAux n n

/-- Value of a little-endian base-8 digit list. -/
def ofOctDigits : List Nat → Nat
  | [] => 0
  | d :: ds => d + 8 * ofOctDigits ds

/-- Model of tarfile's `itn` for numbers below `8 ^ 11`: a 12-byte field of
11 zero-padded ASCII octal digits followed by a NUL terminator.  (Larger
numbers use a base-256 encoding; the inner-tar sizes at issue are far below
the bound.) -/
def itn (n : Nat) : List Nat :=
  let ds := (octDigits n).reverse.map fun d => 48 + d
  (List.replicate (11 - ds.length) 48 ++ ds) ++ [0]

/-- Decode a NUL-terminated ASCII octal field. -/
def parseOctalField (bs : List Nat) : Nat :=
  (bs.takeWhile fun b => b ≠ 0).foldl (fun acc b => acc * 8 + (b - 48)) 0

/-- The 100-byte name field of a tar header: the name bytes padded with
NULs. -/
def nameField (s : String) : List Nat :=
  let bs := (s.data.map Char.toNat).take 100
  bs ++ List.replicate (100 - bs.length) 0

/-- The 512-byte header `TarInfo.tobuf` produces for a plain member: name at
offset 0 (100 bytes), 24 bytes of permission fields, the size field at
offset 124 (12 bytes), and the remaining 376 bytes of metadata (zero in the
model, irrelevant to the claims). -/
def headerBytes (info : TarInfo) : List Nat :=
  nameField info.name ++ List.replicate 24 0 ++ itn info.size ++ List.replicate 376 0

/-- Model of `TarFile.addfile` for a data-less member: write the serialized
header at the current position and advance `offset` by its length. -/
def addfile (tar : TarState) (sink : Sink) (info : TarInfo) : TarState × Sink :=
  let buf := headerBytes info
  ({ offset := tar.offset + buf.length }, sink.write buf)

/-- What the inner `SecureTarFile` session does on the shared sink while the
`with` block runs: it writes `written` sequentially at the current position
(salt, member bytes, end-of-archive blocks, record padding), and its
`TarFile` handle's running `offset` at close is `offset`. -/
structure InnerSession where
  written : List Nat
  offset : Nat

/-- The result of a completed `create_inner_tar` call. -/
structure InnerTarResult where
  outer : TarState
  sink : Sink
  headerOffset : Nat
  tarInfo : TarInfo

/-- Model of `create_inner_tar`: record the outer offset, write a zero
placeholder header, run the inner session on the shared sink, pad the
outer tar to a 512-byte boundary based on the inner offset, advance the
outer offset by the padded total, seek back and write the real header with
the unpadded inner size, and seek to the outer offset. -/
def create_inner_tar (outer : TarState) (sink : Sink) (name : String)
    (inner : InnerSession) : InnerTarResult :=
  let offsetBefore := outer.offset
  let sink1 := sink.write EMPTY_TAR_INFO_BLOCK
  let sink2 := sink1.write inner.written
  let sizeOfInnerTar := inner.offset
  let blocks := sizeOfInnerTar / BLOCKSIZE
  let remainder := sizeOfInnerTar % BLOCKSIZE
  let sink3 :=
    if remainder > 0 then sink2.write (List.replicate (BLOCKSIZE - remainder) 0) else sink2
  let blocks1 := if remainder > 0 then blocks + 1 else blocks
  let outer1 : TarState := { offset := outer.offset + blocks1 * BLOCKSIZE }
  let tarInfo : TarInfo := { name := name, size := sizeOfInnerTar }
  let sink4 := sink3.seek offsetBefore
  let r := addfile outer1 sink4 tarInfo
  let sink5 := r.2.seek r.1.offset
  { outer := r.1, sink := sink5, headerOffset := offsetBefore, tarInfo := tarInfo }

/-! ## Exclusion-aware directory archiver (`atomic_contents_add`)

A directory tree is a node with a name, the `is_dir()` / `is_symlink()`
stat flags, and children (meaningful for a real directory).  Filesystem
paths are parts lists, as above.  The entries the function adds to the tar
(each a non-recursive `tar_file.add`) are collected in order. -/

mutual

/-- A filesystem node: `isDir` is `Path.is_dir()` (which follows symlinks),
`isSymlink` is `Path.is_symlink()`; `children` is what `iterdir()`
enumerates, in filesystem order. -/
inductive FSNode where
  | mk (name : String) (isDir : Bool) (isSymlink : Bool) (children : FSForest)

/-- A sequence of sibling filesystem nodes. -/
inductive FSForest where
  | nil
  | cons (head : FSNode) (tail : FSForest)

end

/-- The entry name of the node. -/
def FSNode.name : FSNode → String
  | .mk n _ _ _ => n

/-- Whether the node is (or resolves to) a directory. -/
def FSNode.isDir : FSNode → Bool
  | .mk _ d _ _ => d

/-- Whether the node itself is a symbolic link. -/
def FSNode.isSymlink : FSNode → Bool
  | .mk _ _ s _ => s

/-- The children of the node. -/
def FSNode.children : FSNode → FSForest
  | .mk _ _ _ cs => cs

/-- The sibling sequence as a list. -/
def FSForest.toList : FSForest → List FSNode
  | .nil => []
  | .cons h t => h :: FSForest.toList t

/-- One `tar_file.add(..., recursive=False)` call: the filesystem path added
and the archive name it is stored under. -/
structure AddedEntry where
  src : List String
  arcname : String
deriving DecidableEq

mutual

/-- Model of `atomic_contents_add`: add nothing when the root is excluded,
otherwise add the root directory entry under `arcname` first, then handle
each direct child in order. -/
def atomic_contents_add : FSNode → List String → List String → String → List AddedEntry
  | .mk _ _ _ cs, path, excludes, arcname =>
    if _is_excluded_by_filter path excludes then []
    else ⟨path, arcname⟩ :: archiveChildren cs path excludes arcname

/-- The per-child loop of `atomic_contents_add`: skip an excluded child,
recurse into a directory that is not a symlink with the alias extended by
the child's name, and add any other child as a single entry. -/
def archiveChildren : FSForest → List String → List String → String → List AddedEntry
  | .nil, _, _, _ => []
  | .cons c rest, path, excludes, arcname =>
    (if _is_excluded_by_filter (path ++ [c.name]) excludes then []
     else
       let arcpath := asPosix (purePathJoin (pathParts arcname) (pathParts c.name))
       if c.isDir && !c.isSymlink then
         atomic_contents_add c (path ++ [c.name]) excludes arcpath
       else [⟨path ++ [c.name], arcpath⟩]) ++
      archiveChildren rest path excludes arcname

end

/-- The scenario tree of the test suite: a.txt (a file), b (a directory
holding sub.txt), c (a symbolic link). -/
def sampleTree : FSNode :=
  FSNode.mk "orig" true false
    (FSForest.cons (FSNode.mk "a.txt" false false FSForest.nil)
      (FSForest.cons
        (FSNode.mk "b" true false
          (FSForest.cons (FSNode.mk "sub.txt" false false FSForest.nil) FSForest.nil))
        (FSForest.cons (FSNode.mk "c" false true FSForest.nil) FSForest.nil)))

/-! ## Properties of the exclusion filter -/

/-- The first-match loop computes the same boolean as an existential over
the pattern list. -/
theorem is_excluded_eq_any (path : List String) (l : List String) :
    _is_excluded_by_filter path l = l.any fun pat => pathMatch path pat := by
  induction l with
  | nil => rfl
  | cons p rest ih =>
    by_cases h : pathMatch path p
    · simp [_is_excluded_by_filter, h]
    · simp [_is_excluded_by_filter, h, ih]

/-- Claim C5: the exclusion predicate walks the pattern list in order and
returns true exactly when some pattern glob-matches the path: a match at
position i makes the result true regardless of the later patterns, and the
result is false when no pattern matches.  (Patterns are required to be
non-degenerate: for an empty pattern the underlying path library raises
`ValueError` instead of returning a boolean.) -/
theorem is_excluded_by_filter_spec (path : List String) (l : List String)
    (hpats : ∀ pat ∈ l, pathParts pat ≠ []) :
    (_is_excluded_by_filter path l = l.any fun pat => pathMatch path pat) ∧
    (∀ l1 pat l2, l = l1 ++ pat :: l2 → pathMatch path pat = true →
      _is_excluded_by_filter path l = true) ∧
    ((∀ pat ∈ l, pathMatch path pat = false) → _is_excluded_by_filter path l = false) := by
  refine ⟨is_excluded_eq_any path l, ?_, ?_⟩
  · intro l1 pat l2 hdec hmatch
    rw [is_excluded_eq_any, hdec]
    refine List.any_eq_true.mpr ⟨pat, ?_, hmatch⟩
    exact List.mem_append.mpr (Or.inr (List.mem_cons_self _ _))
  · intro hnone
    rw [is_excluded_eq_any]
    exact List.any_eq_false.mpr fun pat hpat => by simp [hnone pat hpat]

/-- Witness for C5 at a concrete path and pattern list. -/
theorem is_excluded_by_filter_spec_witness :
    (∀ pat ∈ ["not/match", "data/*"], pathParts pat ≠ []) ∧
    ((_is_excluded_by_filter (pathParts "data/xy.blob") ["not/match", "data/*"] =
        ["not/match", "data/*"].any fun pat => pathMatch (pathParts "data/xy.blob") pat) ∧
     (∀ l1 pat l2, ["not/match", "data/*"] = l1 ++ pat :: l2 →
        pathMatch (pathParts "data/xy.blob") pat = true →
        _is_excluded_by_filter (pathParts "data/xy.blob") ["not/match", "data/*"] = true) ∧
     ((∀ pat ∈ ["not/match", "data/*"], pathMatch (pathParts "data/xy.blob") pat = false) →
        _is_excluded_by_filter (pathParts "data/xy.blob") ["not/match", "data/*"] = false)) :=
  ⟨by decide, is_excluded_by_filter_spec (pathParts "data/xy.blob") ["not/match", "data/*"]
    (by decide)⟩

/-! ## Properties of the path safety filter -/

/-- The yielded members are exactly the kept ones, in order. -/
theorem secure_path_eq_filter (l : List TarMember) :
    secure_path l = l.filter fun m => securePathKeep m.name := by
  induction l with
  | nil => rfl
  | cons m rest ih =>
    by_cases h : securePathKeep m.name
    · simp [secure_path, h, ih, List.filter_cons]
    · simp [secure_path, h, ih, List.filter_cons]

/-- No segment produced by the splitter contains the separator. -/
theorem segsOfChars_no_slash : ∀ (cs : List Char), ∀ seg ∈ segsOfChars cs, '/' ∉ seg
  | [] => by
    intro seg hseg
    simp [segsOfChars] at hseg
    simp [hseg]
  | c :: cs => by
    intro seg hseg
    by_cases hc : c = '/'
    · rw [segsOfChars, if_pos hc] at hseg
      rcases List.mem_cons.mp hseg with h | h
      · simp [h]
      · exact segsOfChars_no_slash cs seg h
    · rw [segsOfChars, if_neg hc] at hseg
      rcases hcs : segsOfChars cs with _ | ⟨s0, rest⟩
      · rw [hcs] at hseg
        have hseg2 : seg ∈ [[c]] := hseg
        simp at hseg2
        subst hseg2
        simp [Ne.symm hc]
      · rw [hcs] at hseg
        have hseg2 : seg ∈ (c :: s0) :: rest := hseg
        rcases List.mem_cons.mp hseg2 with h | h
        · subst h
          intro hmem
          rcases List.mem_cons.mp hmem with h1 | h1
          · exact hc h1.symm
          · exact segsOfChars_no_slash cs s0 (hcs ▸ List.mem_cons_self _ _) h1
        · exact segsOfChars_no_slash cs seg (hcs ▸ List.mem_cons.mpr (Or.inr h))

/-- A relative name never parses to parts headed by the root marker. -/
theorem pathParts_head_slash (name : String) (h : isAbsoluteName name = false) :
    (pathParts name).head? ≠ some "/" := by
  rw [pathParts]
  intro hhead
  simp only [h, if_neg Bool.false_ne_true] at hhead
  have hmem : "/" ∈ (((segsOfChars name.data).map String.mk).filter
      fun seg => !(seg == "") && !(seg == ".")) := by
    exact List.mem_of_mem_head? hhead
  have hmem2 := List.mem_of_mem_filter hmem
  rcases List.mem_map.mp hmem2 with ⟨seg, hseg, heq⟩
  have : '/' ∈ seg := by
    have : seg = ['/'] := by
      have := congrArg String.data heq
      simpa using this
    simp [this]
  exact segsOfChars_no_slash name.data seg hseg this

/-- Resolution of a segment list without ".." just appends the segments. -/
theorem resolveParts_no_dotdot (parts : List String) (h : ".." ∉ parts) :
    ∀ stack, parts.foldl resolveStep stack = stack ++ parts := by
  induction parts with
  | nil => intro stack; simp
  | cons p rest ih =>
    intro stack
    have hp : p ≠ ".." := fun hc => h (hc ▸ List.mem_cons_self _ _)
    rw [List.foldl_cons, resolveStep, if_neg hp,
      ih (fun hc => h (List.mem_cons.mpr (Or.inr hc))) (stack ++ [p])]
    simp

/-- Claim C2 (amended): secure_path yields a sublist of its input — members
pass through unchanged and in original order — keeping exactly the members
whose names pass the resolution check; every absolute name is dropped, and
every relative name without a ".." segment is kept.  (A name containing
".." that still resolves inside the anchor is also kept: see the
counterexample.) -/
theorem secure_path_spec (l : List TarMember) :
    List.Sublist (secure_path l) l ∧
    (∀ m, m ∈ secure_path l ↔ m ∈ l ∧ securePathKeep m.name = true) ∧
    (∀ name, isAbsoluteName name = true → securePathKeep name = false) ∧
    (∀ name, isAbsoluteName name = false → hasDotDotSegment name = false →
      securePathKeep name = true) := by
  refine ⟨?_, ?_, ?_, ?_⟩
  · rw [secure_path_eq_filter]; exact List.filter_sublist l
  · intro m
    rw [secure_path_eq_filter]
    simp [List.mem_filter]
  · intro name habs
    rw [securePathKeep]
    have : (pathParts name).head? = some "/" := by
      rw [pathParts, if_pos habs]; rfl
    simp [this]
  · intro name habs hdot
    rw [securePathKeep, if_neg (pathParts_head_slash name habs)]
    have hnodot : ".." ∉ pathParts name := by
      rw [hasDotDotSegment] at hdot
      simp at hdot
      exact hdot
    rw [resolveParts, List.foldl_cons, resolveStep,
      if_neg (by intro hc; exact absurd hc (by decide)),
      resolveParts_no_dotdot (pathParts name) hnodot]
    simp

/-- Witness for the amended C2 at concrete names. -/
theorem secure_path_spec_witness :
    isAbsoluteName "/test.txt" = true ∧
    isAbsoluteName "bla/blu/ble" = false ∧
    hasDotDotSegment "bla/blu/ble" = false ∧
    securePathKeep "/test.txt" = false ∧
    securePathKeep "bla/blu/ble" = true :=
  ⟨by decide, by decide, by decide,
   (secure_path_spec []).2.2.1 "/test.txt" (by decide),
   (secure_path_spec []).2.2.2 "bla/blu/ble" (by decide) (by decide)⟩

/-- Claim C2 counterexample: the member name "data/../xy.blob" contains a
".." segment and is not absolute, yet secure_path yields it unchanged (its
resolution stays inside the anchor; the code's own test suite asserts this
behavior), so the claim that every name containing a ".." segment is
dropped is false. -/
theorem secure_path_dotdot_counterexample :
    hasDotDotSegment "data/../xy.blob" = true ∧
    isAbsoluteName "data/../xy.blob" = false ∧
    secure_path [TarMember.mk "data/../xy.blob"] = [TarMember.mk "data/../xy.blob"] :=
  ⟨by decide, by decide, by decide⟩

/-! ## Properties of the IV derivation -/

/-- The derivation loop is iteration of the hash. -/
theorem generateIvRounds_eq_iterate (hash : List Nat → List Nat) :
    ∀ n x, generateIvRounds hash n x = hash^[n] x := by
  intro n
  induction n with
  | zero => intro x; rfl
  | succ k ih =>
    intro x
    rw [generateIvRounds, ih, ← Function.iterate_succ_apply]

/-- Claim C4: the derived IV is the first 16 bytes of the hash iterated 100
times on key ++ salt, and the derivation is deterministic: equal key/salt
pairs give equal IVs. -/
theorem generate_iv_spec (hash : List Nat → List Nat) (key salt key2 salt2 : List Nat)
    (hk : key2 = key) (hs : salt2 = salt) :
    _generate_iv hash key salt = (hash^[100] (key ++ salt)).take 16 ∧
    _generate_iv hash key2 salt2 = _generate_iv hash key salt := by
  subst hk hs
  exact ⟨by rw [_generate_iv, generateIvRounds_eq_iterate], rfl⟩

/-- Witness for C4 at a concrete hash, key and salt. -/
theorem generate_iv_spec_witness :
    ([3] : List Nat) = [3] ∧ ([5] : List Nat) = [5] ∧
    (_generate_iv (fun l => 0 :: l) [3] [5] =
        ((fun l => (0 : Nat) :: l)^[100] ([3] ++ [5])).take 16 ∧
      _generate_iv (fun l => 0 :: l) [3] [5] = _generate_iv (fun l => 0 :: l) [3] [5]) :=
  ⟨rfl, rfl, generate_iv_spec (fun l => 0 :: l) [3] [5] [3] [5] rfl rfl⟩

/-! ## Properties of the size accessor -/

/-- Claim C9: the size accessor returns 0 for every path that is not a
regular file — missing, a directory, or any other kind — and returns the
byte size in mebibytes rounded to two decimals exactly when the path is a
regular file. -/
theorem size_spec :
    (∀ st : PathStat, st.isFile = false → SecureTarFile.size st = 0) ∧
    SecureTarFile.size PathStat.missing = 0 ∧
    SecureTarFile.size PathStat.directory = 0 ∧
    SecureTarFile.size PathStat.other = 0 ∧
    (∀ n : Nat, SecureTarFile.size (PathStat.regularFile n) =
      pyRound2 ((n : ℚ) / 1048576)) := by
  refine ⟨?_, rfl, rfl, rfl, ?_⟩
  · intro st h
    rw [SecureTarFile.size, h]
    rfl
  · intro n
    rw [SecureTarFile.size]
    rfl

/-- Witness for C9 at a concrete non-file path state. -/
theorem size_spec_witness :
    PathStat.directory.isFile = false ∧ SecureTarFile.size PathStat.directory = 0 :=
  ⟨rfl, size_spec.1 PathStat.directory rfl⟩

/-! ## Properties of the session lifecycle -/

/-- Claim C6: on close, the container handle is closed before any raw file
handle; the raw file handle is closed only when the session owns it (no
external fileobj); an externally supplied fileobj is reused on open and is
never closed; and the behavior is identical on every exit path. -/
theorem sessionExit_spec (s : SessionState) (exc exc2 : Option Nat) :
    (sessionExit s exc = sessionExit s exc2) ∧
    ((sessionExit s exc).2 =
      ((sessionExit s exc).2.filter CloseEvent.isTarClose) ++
        ((sessionExit s exc).2.filter fun e => !e.isTarClose)) ∧
    (∀ f, s.fileobj = some f → ∀ h, CloseEvent.closeFile h ∉ (sessionExit s exc).2) ∧
    (∀ h, CloseEvent.closeFile h ∈ (sessionExit s exc).2 →
      s.fileobj = none ∧ s.file = some h) ∧
    (∀ f fresh, s.fileobj = some f →
      sessionEnterFileAcq s fresh = ({ s with file := some f }, false)) := by
  rcases s with ⟨tar, file, fileobj⟩
  cases tar <;> cases file <;> cases fileobj <;>
    simp [sessionExit, sessionEnterFileAcq, CloseEvent.isTarClose]

/-- Witness for C6: a session holding an external fileobj closes only the
container handle. -/
theorem sessionExit_spec_witness :
    (⟨some 1, some 2, some 7⟩ : SessionState).fileobj = some 7 ∧
    CloseEvent.closeFile 2 ∉ (sessionExit ⟨some 1, some 2, some 7⟩ none).2 :=
  ⟨rfl, (sessionExit_spec ⟨some 1, some 2, some 7⟩ none none).2.2.1 7 rfl 2⟩

/-- Claim C10: close is idempotent: the first exit nulls both handles, so a
second exit (or an exit of a never-opened session) performs no close call
and leaves the state unchanged. -/
theorem sessionExit_idempotent (s : SessionState) (exc exc2 : Option Nat) :
    ((sessionExit s exc).1.tar = none ∧ (sessionExit s exc).1.file = none) ∧
    sessionExit (sessionExit s exc).1 exc2 = ((sessionExit s exc).1, []) ∧
    (∀ s0 : SessionState, s0.tar = none → s0.file = none →
      sessionExit s0 exc = (s0, [])) := by
  refine ⟨?_, ?_, ?_⟩
  · rcases s with ⟨tar, file, fileobj⟩
    cases tar <;> cases file <;> simp [sessionExit]
  · rcases s with ⟨tar, file, fileobj⟩
    cases tar <;> cases file <;> simp [sessionExit]
  · intro s0 htar hfile
    rcases s0 with ⟨tar, file, fileobj⟩
    cases htar; cases hfile
    simp [sessionExit]

/-- Witness for C10: exiting a never-opened session is a no-op. -/
theorem sessionExit_idempotent_witness :
    (⟨none, none, none⟩ : SessionState).tar = none ∧
    sessionExit ⟨none, none, none⟩ none = (⟨none, none, none⟩, []) :=
  ⟨rfl, (sessionExit_idempotent ⟨none, none, none⟩ none none).2.2
    ⟨none, none, none⟩ rfl rfl⟩

/-! ## Properties of the cipher stream adapter -/

/-- Xor of blocks has the shorter length. -/
theorem xorBytes_length (a b : List Nat) :
    (xorBytes a b).length = min a.length b.length := by
  simp [xorBytes]

/-- Behavior of the CBC block loop with enough fuel: the chaining vector
stays one block long, the ciphertext covers exactly the complete input
blocks, and the leftover is the input's final partial block. -/
theorem cbcUpdateAux_spec (blockEnc : List Nat → List Nat)
    (hBE : ∀ b, b.length = 16 → (blockEnc b).length = 16) :
    ∀ fuel chain buf, buf.length ≤ fuel → chain.length = 16 →
      (cbcUpdateAux blockEnc fuel chain buf).1.length = 16 ∧
      (cbcUpdateAux blockEnc fuel chain buf).2.1.length = 16 * (buf.length / 16) ∧
      (cbcUpdateAux blockEnc fuel chain buf).2.2 = buf.drop (16 * (buf.length / 16)) := by
  intro fuel
  induction fuel with
  | zero =>
    intro chain buf hle hch
    have hbuf : buf = [] := List.eq_nil_of_length_eq_zero (Nat.le_zero.mp hle)
    subst hbuf
    simp [cbcUpdateAux, hch]
  | succ k ih =>
    intro chain buf hle hch
    by_cases hlt : buf.length < 16
    · have h16 : buf.length / 16 = 0 := Nat.div_eq_of_lt hlt
      simp [cbcUpdateAux, if_pos hlt, hch, h16]
    · push_neg at hlt
      have hblock : (buf.take 16).length = 16 := by
        simp [List.length_take, Nat.min_eq_left hlt]
      have hxlen : (xorBytes (buf.take 16) chain).length = 16 := by
        rw [xorBytes_length, hblock, hch]
        exact Nat.min_self 16
      have hctlen : (blockEnc (xorBytes (buf.take 16) chain)).length = 16 :=
        hBE _ hxlen
      have hrest : (buf.drop 16).length ≤ k := by
        simp [List.length_drop]
        omega
      have hspec := ih (blockEnc (xorBytes (buf.take 16) chain)) (buf.drop 16) hrest hctlen
      rw [cbcUpdateAux, if_neg (by omega)]
      refine ⟨hspec.1, ?_, ?_⟩
      · simp only [List.length_append, hctlen, hspec.2.1, List.length_drop]
        omega
      · rw [hspec.2.2, List.drop_drop, List.length_drop]
        congr 1
        omega

/-- Claim C3: per write call, PKCS#7 padding is applied exactly when the
chunk length is not a multiple of 16; the padded chunk is encrypted and
appended to the sink, so the ciphertext emitted by the call has length a
multiple of the block size (equal to the chunk length when aligned, and to
the chunk length rounded up to the next block otherwise); a zero-length
chunk triggers no padding and writes no bytes; and the cipher context never
buffers a partial block across calls. -/
theorem write_spec (blockEnc : List Nat → List Nat) (st : EncState) (file data : List Nat)
    (hBE : ∀ b, b.length = 16 → (blockEnc b).length = 16)
    (hchain : st.chain.length = 16) (hpend : st.pending = []) :
    ∃ ct : List Nat,
      (SecureTarFile.write blockEnc st file data).2 = file ++ ct ∧
      ct.length % 16 = 0 ∧
      (data.length % 16 = 0 → ct.length = data.length) ∧
      (data.length % 16 ≠ 0 → ct.length = data.length + (16 - data.length % 16)) ∧
      (data = [] → ct = []) ∧
      (SecureTarFile.write blockEnc st file data).1.pending = [] ∧
      (SecureTarFile.write blockEnc st file data).1.chain.length = 16 := by
  rw [SecureTarFile.write, cipherUpdate, hpend]
  simp only [List.nil_append]
  by_cases hmod : data.length % 16 = 0
  · rw [if_neg (by simp [hmod])]
    have hspec := cbcUpdateAux_spec blockEnc hBE data.length st.chain data
      (Nat.le_refl _) hchain
    have hfull : 16 * (data.length / 16) = data.length := by omega
    refine ⟨(cbcUpdateAux blockEnc data.length st.chain data).2.1, rfl, ?_, ?_, ?_, ?_, ?_, ?_⟩
    · rw [hspec.2.1, hfull, hmod]
    · intro _; rw [hspec.2.1, hfull]
    · intro hc; exact absurd hmod hc
    · intro hdata
      subst hdata
      have h0 : (cbcUpdateAux blockEnc ([] : List Nat).length st.chain
          ([] : List Nat)).2.1.length = 0 := by
        rw [hspec.2.1]
        simp
      exact List.eq_nil_of_length_eq_zero h0
    · rw [hspec.2.2, hfull, List.drop_length]
    · exact hspec.1
  · rw [if_pos (by simp [hmod])]
    have hplen : (pkcs7Pad data).length = data.length + (16 - data.length % 16) := by
      simp [pkcs7Pad]
    have hpmod : (pkcs7Pad data).length % 16 = 0 := by
      rw [hplen]; omega
    have hspec := cbcUpdateAux_spec blockEnc hBE (pkcs7Pad data).length st.chain
      (pkcs7Pad data) (Nat.le_refl _) hchain
    have hfull : 16 * ((pkcs7Pad data).length / 16) = (pkcs7Pad data).length := by omega
    refine ⟨(cbcUpdateAux blockEnc (pkcs7Pad data).length st.chain (pkcs7Pad data)).2.1,
      rfl, ?_, ?_, ?_, ?_, ?_, ?_⟩
    · rw [hspec.2.1, hfull, hplen]; omega
    · intro hc; exact absurd hc hmod
    · intro _; rw [hspec.2.1, hfull, hplen]
    · intro hdata
      subst hdata
      simp at hmod
    · rw [hspec.2.2, hfull, List.drop_length]
    · exact hspec.1

/-- Witness for C3 at a concrete block cipher, state and chunk. -/
theorem write_spec_witness :
    (∀ b : List Nat, b.length = 16 → (id b).length = 16) ∧
    (⟨List.replicate 16 0, []⟩ : EncState).chain.length = 16 ∧
    (⟨List.replicate 16 0, []⟩ : EncState).pending = [] ∧
    (∃ ct : List Nat,
      (SecureTarFile.write id ⟨List.replicate 16 0, []⟩ [] [1, 2, 3]).2 = [] ++ ct ∧
      ct.length % 16 = 0 ∧
      (([1, 2, 3] : List Nat).length % 16 = 0 → ct.length = ([1, 2, 3] : List Nat).length) ∧
      (([1, 2, 3] : List Nat).length % 16 ≠ 0 →
        ct.length = ([1, 2, 3] : List Nat).length +
          (16 - ([1, 2, 3] : List Nat).length % 16)) ∧
      (([1, 2, 3] : List Nat) = [] → ct = []) ∧
      (SecureTarFile.write id ⟨List.replicate 16 0, []⟩ [] [1, 2, 3]).1.pending = [] ∧
      (SecureTarFile.write id ⟨List.replicate 16 0, []⟩ [] [1, 2, 3]).1.chain.length = 16) :=
  ⟨fun _ hb => hb, by decide, rfl,
   write_spec id ⟨List.replicate 16 0, []⟩ [] [1, 2, 3] (fun _ hb => hb) (by decide) rfl⟩

/-! ## Properties of the nested-archive embedding -/

/-- The digit loop inverts the base-8 valuation with enough fuel. -/
theorem octDigitsAux_ofOct : ∀ fuel n, n ≤ fuel → ofOctDigits (octDigitsAux fuel n) = n
  | 0, n, h => by
    have : n = 0 := Nat.le_zero.mp h
    subst this
    rfl
  | fuel + 1, n, h => by
    by_cases hn : n = 0
    · subst hn; simp [octDigitsAux, ofOctDigits]
    · rw [octDigitsAux, if_neg hn, ofOctDigits,
        octDigitsAux_ofOct fuel (n / 8) (by omega)]
      omega

/-- The digit loop yields at most `k` digits for numbers below `8 ^ k`. -/
theorem octDigitsAux_length : ∀ fuel n k, n ≤ fuel → n < 8 ^ k →
    (octDigitsAux fuel n).length ≤ k
  | 0, _, _, _, _ => by simp [octDigitsAux]
  | fuel + 1, n, k, h, hk => by
    by_cases hn : n = 0
    · subst hn; simp [octDigitsAux]
    · match k with
      | 0 => omega
      | j + 1 =>
        rw [octDigitsAux, if_neg hn]
        have hdiv : n / 8 < 8 ^ j := by
          rw [Nat.div_lt_iff_lt_mul (by omega)]
          calc n < 8 ^ (j + 1) := hk
          _ = 8 ^ j * 8 := by rw [Nat.pow_succ]
        have := octDigitsAux_length fuel (n / 8) j (by omega) hdiv
        simpa using this

/-- Scanning an all-nonzero list stops exactly at the appended NUL. -/
theorem takeWhile_append_nul (A : List Nat) (hA : ∀ a ∈ A, a ≠ 0) :
    (A ++ [0]).takeWhile (fun b => b ≠ 0) = A := by
  induction A with
  | nil => simp [List.takeWhile]
  | cons a A ih =>
    have ha : a ≠ 0 := hA a (List.mem_cons_self _ _)
    rw [List.cons_append, List.takeWhile_cons, if_pos (by simp [ha]),
      ih fun x hx => hA x (List.mem_cons.mpr (Or.inr hx))]

/-- The octal accumulator ignores leading pad digits of value '0'. -/
theorem foldl_oct_pad (k : Nat) :
    (List.replicate k 48).foldl (fun a b => a * 8 + (b - 48)) 0 = 0 := by
  induction k with
  | zero => rfl
  | succ j ih => simpa [List.replicate_succ, List.foldl_cons] using ih

/-- The octal accumulator over reversed, ASCII-mapped digits computes the
little-endian valuation. -/
theorem foldl_rev_oct (ds : List Nat) (acc : Nat) :
    (ds.reverse.map fun d => 48 + d).foldl (fun a b => a * 8 + (b - 48)) acc =
      acc * 8 ^ ds.length + ofOctDigits ds := by
  induction ds generalizing acc with
  | nil => simp [ofOctDigits]
  | cons d ds ih =>
    rw [List.reverse_cons, List.map_append, List.foldl_append, ih acc]
    simp only [List.map_cons, List.map_nil, List.foldl_cons, List.foldl_nil,
      ofOctDigits, List.length_cons]
    have h48 : 48 + d - 48 = d := by omega
    rw [h48, Nat.pow_succ]
    ring

/-- Decoding the serialized octal size field recovers the size. -/
theorem parseOctal_itn (n : Nat) (h : n < 8 ^ 11) : parseOctalField (itn n) = n := by
  rw [parseOctalField, itn]
  have hA : ∀ a ∈ List.replicate (11 - ((octDigits n).reverse.map
      fun d => 48 + d).length) 48 ++ (octDigits n).reverse.map (fun d => 48 + d), a ≠ 0 := by
    intro a ha
    rcases List.mem_append.mp ha with h1 | h1
    · rw [List.eq_of_mem_replicate h1]; omega
    · rcases List.mem_map.mp h1 with ⟨d, _, hd⟩
      omega
  rw [takeWhile_append_nul _ hA, List.foldl_append, foldl_oct_pad, foldl_rev_oct]
  simp [octDigits, octDigitsAux_ofOct n n (Nat.le_refl n)]

/-- The size field is always 12 bytes for sizes below `8 ^ 11`. -/
theorem itn_length (n : Nat) (h : n < 8 ^ 11) : (itn n).length = 12 := by
  rw [itn]
  have hlen : ((octDigits n).reverse.map fun d => 48 + d).length ≤ 11 := by
    rw [List.length_map, List.length_reverse]
    exact octDigitsAux_length n n 11 (Nat.le_refl n) h
  simp only [List.length_append, List.length_replicate, List.length_cons,
    List.length_nil]
  omega

/-- The name field is always 100 bytes. -/
theorem nameField_length (s : String) : (nameField s).length = 100 := by
  rw [nameField]
  have : ((s.data.map Char.toNat).take 100).length ≤ 100 := by
    simp [List.length_take]
  simp only [List.length_append, List.length_replicate]
  omega

/-- The serialized header is one 512-byte block for sizes below `8 ^ 11`. -/
theorem headerBytes_length (info : TarInfo) (h : info.size < 8 ^ 11) :
    (headerBytes info).length = 512 := by
  rw [headerBytes]
  simp only [List.length_append, nameField_length, itn_length info.size h,
    List.length_replicate]

/-- Writing at the end of the file appends. -/
theorem Sink.write_append (s : Sink) (bs : List Nat) (h : s.pos = s.data.length) :
    s.write bs = ⟨s.data ++ bs, s.pos + bs.length⟩ := by
  rw [Sink.write, listOverwrite, h, List.take_length,
    List.drop_eq_nil_of_le (by simp), List.append_nil]

/-- The placeholder block is one header block long. -/
theorem EMPTY_block_length : EMPTY_TAR_INFO_BLOCK.length = 512 := by
  rw [EMPTY_TAR_INFO_BLOCK, BLOCKSIZE, List.length_replicate]

/-- Dropping past a leading list continues inside the appended one. -/
theorem drop_append_right (l1 l2 : List Nat) (k : Nat) :
    (l1 ++ l2).drop (l1.length + k) = l2.drop k := by
  induction l1 with
  | nil => simp
  | cons a l1 ih =>
    rw [List.cons_append, List.length_cons,
      show l1.length + 1 + k = (l1.length + k) + 1 by omega,
      List.drop_succ_cons, ih]

/-- Closed form of the sink contents after a completed `create_inner_tar`
on an in-sync session positioned at the end of the file: the real header
sits at the recorded offset, in place of the placeholder, followed by the
bytes the inner session wrote and the outer-level zero padding. -/
theorem create_inner_tar_data (outer : TarState) (sink : Sink) (name : String)
    (inner : InnerSession) (hsync : sink.pos = outer.offset)
    (hend : sink.pos = sink.data.length) (hsize : inner.offset < 8 ^ 11) :
    (create_inner_tar outer sink name inner).sink.data =
      sink.data ++ headerBytes ⟨name, inner.offset⟩ ++
        (inner.written ++
          (if 0 < inner.offset % 512 then
            List.replicate (512 - inner.offset % 512) 0 else [])) := by
  have hL : sink.data.length = outer.offset := by rw [← hend, hsync]
  have hs1 : sink.write EMPTY_TAR_INFO_BLOCK =
      ⟨sink.data ++ EMPTY_TAR_INFO_BLOCK, sink.pos + 512⟩ := by
    rw [Sink.write_append sink _ hend, EMPTY_block_length]
  have hpos2 : (sink.pos + 512 : Nat) =
      (sink.data ++ EMPTY_TAR_INFO_BLOCK).length := by
    rw [List.length_append, EMPTY_block_length, hend]
  have hs2 : (⟨sink.data ++ EMPTY_TAR_INFO_BLOCK, sink.pos + 512⟩ : Sink).write
      inner.written =
      ⟨sink.data ++ EMPTY_TAR_INFO_BLOCK ++ inner.written,
        sink.pos + 512 + inner.written.length⟩ := by
    rw [Sink.write_append _ _ hpos2]
  have hpos3 : (sink.pos + 512 + inner.written.length : Nat) =
      (sink.data ++ EMPTY_TAR_INFO_BLOCK ++ inner.written).length := by
    rw [List.length_append, List.length_append, EMPTY_block_length, hend]
  rw [create_inner_tar]
  simp only [hs1, hs2, BLOCKSIZE]
  by_cases hrem : 0 < inner.offset % 512
  · rw [if_pos hrem, if_pos hrem, Sink.write_append _ _ hpos3]
    simp only [addfile, Sink.seek, Sink.write, listOverwrite, if_pos hrem]
    rw [headerBytes_length _ hsize]
    have hdata :
        sink.data ++ EMPTY_TAR_INFO_BLOCK ++ inner.written ++
          List.replicate (512 - inner.offset % 512) 0 =
        sink.data ++ (EMPTY_TAR_INFO_BLOCK ++
          (inner.written ++ List.replicate (512 - inner.offset % 512) 0)) := by
      simp [List.append_assoc]
    rw [hdata, List.take_left' hL, ← hL, drop_append_right,
      List.drop_left' EMPTY_block_length]
  · rw [if_neg hrem, if_neg hrem]
    simp only [addfile, Sink.seek, Sink.write, listOverwrite]
    rw [headerBytes_length _ hsize]
    have hdata :
        sink.data ++ EMPTY_TAR_INFO_BLOCK ++ inner.written =
        sink.data ++ (EMPTY_TAR_INFO_BLOCK ++ inner.written) := by
      simp [List.append_assoc]
    rw [hdata, List.take_left' hL, ← hL, drop_append_right,
      List.drop_left' EMPTY_block_length]
    simp [List.append_assoc, hrem]

/-- Claim C8: a completed `create_inner_tar` advances the outer tar's
running offset by exactly one 512-byte header block plus the inner byte
count rounded up to the next multiple of 512, and leaves the shared sink's
position exactly at that final offset. -/
theorem create_inner_tar_offset_spec (outer : TarState) (sink : Sink) (name : String)
    (inner : InnerSession) (hsize : inner.offset < 8 ^ 11) :
    (create_inner_tar outer sink name inner).outer.offset =
      outer.offset + 512 + 512 * ((inner.offset + 511) / 512) ∧
    (create_inner_tar outer sink name inner).sink.pos =
      (create_inner_tar outer sink name inner).outer.offset := by
  rw [create_inner_tar]
  simp only [addfile, Sink.seek, Sink.write, BLOCKSIZE]
  rw [headerBytes_length _ hsize]
  refine ⟨?_, by trivial⟩
  by_cases hrem : 0 < inner.offset % 512
  · rw [if_pos hrem]; omega
  · rw [if_neg hrem]; omega

/-- Witness for C8 at a concrete embedding (inner offset of 600 bytes). -/
theorem create_inner_tar_offset_spec_witness :
    (InnerSession.mk [7, 7, 7] 600).offset < 8 ^ 11 ∧
    ((create_inner_tar ⟨0⟩ ⟨[], 0⟩ "core.tar.gz"
        (InnerSession.mk [7, 7, 7] 600)).outer.offset =
      (0 : Nat) + 512 + 512 * ((600 + 511) / 512) ∧
    (create_inner_tar ⟨0⟩ ⟨[], 0⟩ "core.tar.gz"
        (InnerSession.mk [7, 7, 7] 600)).sink.pos =
      (create_inner_tar ⟨0⟩ ⟨[], 0⟩ "core.tar.gz"
        (InnerSession.mk [7, 7, 7] 600)).outer.offset) :=
  ⟨by decide, create_inner_tar_offset_spec ⟨0⟩ ⟨[], 0⟩ "core.tar.gz" _ (by decide)⟩

/-- Claim C1: the header `create_inner_tar` writes for the inner member
declares exactly the byte count the inner session produced (the inner
TarFile's running offset at close, before outer-level padding): the member
record carries that size, the real header is written at the offset
recorded before the placeholder, and the 12-byte size field at byte 124 of
that header decodes to exactly the inner byte count. -/
theorem create_inner_tar_header_spec (outer : TarState) (sink : Sink) (name : String)
    (inner : InnerSession) (hsync : sink.pos = outer.offset)
    (hend : sink.pos = sink.data.length) (hsize : inner.offset < 8 ^ 11) :
    (create_inner_tar outer sink name inner).tarInfo.size = inner.offset ∧
    (create_inner_tar outer sink name inner).headerOffset = outer.offset ∧
    readBytes (create_inner_tar outer sink name inner).sink.data
        (create_inner_tar outer sink name inner).headerOffset 512 =
      headerBytes ⟨name, inner.offset⟩ ∧
    parseOctalField (readBytes (create_inner_tar outer sink name inner).sink.data
        ((create_inner_tar outer sink name inner).headerOffset + 124) 12) =
      inner.offset := by
  have hL : sink.data.length = outer.offset := by rw [← hend, hsync]
  have hhead : (create_inner_tar outer sink name inner).headerOffset = outer.offset := rfl
  have hdata := create_inner_tar_data outer sink name inner hsync hend hsize
  refine ⟨rfl, rfl, ?_, ?_⟩
  · rw [hdata, hhead, readBytes, List.append_assoc, List.drop_left' hL,
      List.take_left' (headerBytes_length _ hsize)]
  · rw [hdata, hhead, readBytes, List.append_assoc, ← hL, drop_append_right]
    rw [headerBytes]
    have hsplit : nameField name ++ List.replicate 24 0 ++ itn inner.offset ++
        List.replicate 376 0 ++
        (inner.written ++ (if 0 < inner.offset % 512 then
          List.replicate (512 - inner.offset % 512) 0 else [])) =
        (nameField name ++ List.replicate 24 0) ++
          (itn inner.offset ++ (List.replicate 376 0 ++
            (inner.written ++ (if 0 < inner.offset % 512 then
              List.replicate (512 - inner.offset % 512) 0 else [])))) := by
      rw [List.append_assoc (nameField name ++ List.replicate 24 0 ++ itn inner.offset),
        List.append_assoc (nameField name ++ List.replicate 24 0)]
    rw [hsplit, List.drop_left' (show (nameField name ++ List.replicate 24 0).length = 124 by
        rw [List.length_append, nameField_length, List.length_replicate]),
      List.take_left' (itn_length _ hsize), parseOctal_itn _ hsize]

/-- Witness for C1 at a concrete embedding (inner session of 3 bytes). -/
theorem create_inner_tar_header_spec_witness :
    (⟨[], 0⟩ : Sink).pos = (⟨0⟩ : TarState).offset ∧
    (⟨[], 0⟩ : Sink).pos = (⟨[], 0⟩ : Sink).data.length ∧
    (InnerSession.mk [9, 9, 9] 3).offset < 8 ^ 11 ∧
    ((create_inner_tar ⟨0⟩ ⟨[], 0⟩ "inner.tgz" (InnerSession.mk [9, 9, 9] 3)).tarInfo.size = 3 ∧
    (create_inner_tar ⟨0⟩ ⟨[], 0⟩ "inner.tgz" (InnerSession.mk [9, 9, 9] 3)).headerOffset =
      (⟨0⟩ : TarState).offset ∧
    readBytes (create_inner_tar ⟨0⟩ ⟨[], 0⟩ "inner.tgz"
          (InnerSession.mk [9, 9, 9] 3)).sink.data
        (create_inner_tar ⟨0⟩ ⟨[], 0⟩ "inner.tgz"
          (InnerSession.mk [9, 9, 9] 3)).headerOffset 512 =
      headerBytes ⟨"inner.tgz", 3⟩ ∧
    parseOctalField (readBytes (create_inner_tar ⟨0⟩ ⟨[], 0⟩ "inner.tgz"
          (InnerSession.mk [9, 9, 9] 3)).sink.data
        ((create_inner_tar ⟨0⟩ ⟨[], 0⟩ "inner.tgz"
          (InnerSession.mk [9, 9, 9] 3)).headerOffset + 124) 12) = 3) :=
  ⟨rfl, rfl, by decide,
   by
    have h := create_inner_tar_header_spec ⟨0⟩ ⟨[], 0⟩ "inner.tgz"
      (InnerSession.mk [9, 9, 9] 3) rfl rfl (by decide)
    exact h⟩

/-! ## Properties of the directory archiver -/

mutual

/-- Every entry the archiver adds has a source path the exclusion filter
passes: excluded paths are never added. -/
theorem atomic_entries_not_excluded : ∀ (t : FSNode) (path excl : List String)
    (arc : String), ∀ e ∈ atomic_contents_add t path excl arc,
    _is_excluded_by_filter e.src excl = false
  | .mk n d s cs, path, excl, arc => by
    intro e he
    rw [atomic_contents_add] at he
    by_cases hx : _is_excluded_by_filter path excl
    · rw [if_pos hx] at he
      simp at he
    · rw [if_neg hx] at he
      rcases List.mem_cons.mp he with h | h
      · subst h
        exact Bool.eq_false_iff.mpr hx
      · exact archiveChildren_entries_not_excluded cs path excl arc e h

/-- Forest version of `atomic_entries_not_excluded`. -/
theorem archiveChildren_entries_not_excluded : ∀ (f : FSForest) (path excl : List String)
    (arc : String), ∀ e ∈ archiveChildren f path excl arc,
    _is_excluded_by_filter e.src excl = false
  | .nil, path, excl, arc => by
    intro e he
    simp [archiveChildren] at he
  | .cons c rest, path, excl, arc => by
    intro e he
    rw [archiveChildren] at he
    rcases List.mem_append.mp he with h | h
    · by_cases hx : _is_excluded_by_filter (path ++ [c.name]) excl
      · rw [if_pos hx] at h
        simp at h
      · rw [if_neg hx] at h
        by_cases hdir : c.isDir && !c.isSymlink
        · rw [if_pos hdir] at h
          exact atomic_entries_not_excluded c (path ++ [c.name]) excl _ e h
        · rw [if_neg hdir] at h
          simp at h
          subst h
          exact Bool.eq_false_iff.mpr hx
    · exact archiveChildren_entries_not_excluded rest path excl arc e h

end

mutual

/-- Every entry the archiver adds lives at or below the root path. -/
theorem atomic_src_take : ∀ (t : FSNode) (path excl : List String) (arc : String),
    ∀ e ∈ atomic_contents_add t path excl arc, e.src.take path.length = path
  | .mk n d s cs, path, excl, arc => by
    intro e he
    rw [atomic_contents_add] at he
    by_cases hx : _is_excluded_by_filter path excl
    · rw [if_pos hx] at he
      simp at he
    · rw [if_neg hx] at he
      rcases List.mem_cons.mp he with h | h
      · subst h
        exact List.take_length path
      · rcases archiveChildren_attribution cs path excl arc e h with
          ⟨c, _, htake, _, _⟩
        have h1 : e.src.take path.length =
            (e.src.take (path.length + 1)).take path.length := by
          rw [List.take_take, Nat.min_eq_left (by omega)]
        rw [h1, htake, List.take_left' rfl]

/-- Every entry the per-child loop adds is attributable to a child of the
forest: its source path extends the path by that child's name, the child's
path passed the exclusion filter, and the entry either is the child itself
or arose from recursion into a non-symlink directory child. -/
theorem archiveChildren_attribution : ∀ (f : FSForest) (path excl : List String)
    (arc : String), ∀ e ∈ archiveChildren f path excl arc,
    ∃ c, c ∈ f.toList ∧ e.src.take (path.length + 1) = path ++ [c.name] ∧
      _is_excluded_by_filter (path ++ [c.name]) excl = false ∧
      (e.src = path ++ [c.name] ∨ (c.isDir && !c.isSymlink) = true)
  | .nil, path, excl, arc => by
    intro e he
    simp [archiveChildren] at he
  | .cons c rest, path, excl, arc => by
    intro e he
    rw [archiveChildren] at he
    rcases List.mem_append.mp he with h | h
    · by_cases hx : _is_excluded_by_filter (path ++ [c.name]) excl
      · rw [if_pos hx] at h
        simp at h
      · rw [if_neg hx] at h
        by_cases hdir : c.isDir && !c.isSymlink
        · rw [if_pos hdir] at h
          have htake := atomic_src_take c (path ++ [c.name]) excl _ e h
          refine ⟨c, List.mem_cons_self _ _, ?_, Bool.eq_false_iff.mpr hx, Or.inr hdir⟩
          have hlen : (path ++ [c.name]).length = path.length + 1 := by simp
          rw [← hlen, htake]
        · rw [if_neg hdir] at h
          simp at h
          subst h
          refine ⟨c, List.mem_cons_self _ _, ?_, Bool.eq_false_iff.mpr hx, Or.inl rfl⟩
          have hlen : (path ++ [c.name]).length = path.length + 1 := by simp
          rw [← hlen, List.take_length]
    · rcases archiveChildren_attribution rest path excl arc e h with
        ⟨c1, hc1, htake, hx1, hor⟩
      exact ⟨c1, List.mem_cons.mpr (Or.inr hc1), htake, hx1, hor⟩

end

/-- Every non-excluded direct child contributes an entry for itself, stored
under the alias extended by its name. -/
theorem archiveChildren_child_present : ∀ (f : FSForest) (path excl : List String)
    (arc : String), ∀ c ∈ f.toList,
    _is_excluded_by_filter (path ++ [c.name]) excl = false →
    ∃ e ∈ archiveChildren f path excl arc, e.src = path ++ [c.name] ∧
      e.arcname = asPosix (purePathJoin (pathParts arc) (pathParts c.name))
  | .nil, path, excl, arc => by
    intro c hc
    simp [FSForest.toList] at hc
  | .cons c0 rest, path, excl, arc => by
    intro c hc hx
    rcases List.mem_cons.mp hc with h | h
    · subst h
      rw [archiveChildren]
      by_cases hdir : c.isDir && !c.isSymlink
      · refine ⟨⟨path ++ [c.name],
          asPosix (purePathJoin (pathParts arc) (pathParts c.name))⟩, ?_, rfl, rfl⟩
        rw [if_neg (by simp [hx]), if_pos hdir]
        rcases c with ⟨n, d, s, cs⟩
        rw [atomic_contents_add, if_neg (by simp [hx])]
        exact List.mem_append.mpr (Or.inl (List.mem_cons_self _ _))
      · refine ⟨⟨path ++ [c.name],
          asPosix (purePathJoin (pathParts arc) (pathParts c.name))⟩, ?_, rfl, rfl⟩
        rw [if_neg (by simp [hx]), if_neg hdir]
        exact List.mem_append.mpr (Or.inl (List.mem_cons_self _ _))
    · rcases archiveChildren_child_present rest path excl arc c h hx with ⟨e, he, hsrc, harc⟩
      refine ⟨e, ?_, hsrc, harc⟩
      rw [archiveChildren]
      exact List.mem_append.mpr (Or.inr he)

/-- Claim C7: if the root path is excluded the archiver adds nothing;
otherwise it adds the root directory entry under the alias before any other
entry; every added entry's path passes the exclusion filter; no entry is
attributed to an excluded direct child; no entry descends strictly below a
symlink child (symlinked directories are never followed); and every
non-excluded direct child appears as an entry of its own, under the alias
extended by the child's name.  (Direct children are assumed to carry
distinct names, as filesystem directory listings do.) -/
theorem atomic_contents_add_spec (t : FSNode) (path excl : List String) (arc : String)
    (hnodup : ((FSNode.children t).toList.map FSNode.name).Nodup) :
    (_is_excluded_by_filter path excl = true → atomic_contents_add t path excl arc = []) ∧
    (_is_excluded_by_filter path excl = false →
      (atomic_contents_add t path excl arc).head? = some ⟨path, arc⟩) ∧
    (∀ e ∈ atomic_contents_add t path excl arc,
      _is_excluded_by_filter e.src excl = false) ∧
    (∀ c ∈ (FSNode.children t).toList,
      _is_excluded_by_filter (path ++ [c.name]) excl = true →
      ∀ e ∈ atomic_contents_add t path excl arc,
        e.src.take (path.length + 1) ≠ path ++ [c.name]) ∧
    (∀ c ∈ (FSNode.children t).toList, c.isSymlink = true →
      ∀ e ∈ atomic_contents_add t path excl arc,
        ¬(path.length + 1 < e.src.length ∧
          e.src.take (path.length + 1) = path ++ [c.name])) ∧
    (_is_excluded_by_filter path excl = false →
      ∀ c ∈ (FSNode.children t).toList,
        _is_excluded_by_filter (path ++ [c.name]) excl = false →
        ∃ e ∈ atomic_contents_add t path excl arc,
          e.src = path ++ [c.name] ∧
          e.arcname = asPosix (purePathJoin (pathParts arc) (pathParts c.name))) := by
  have hnameInj : ∀ c1 ∈ (FSNode.children t).toList, ∀ c2 ∈ (FSNode.children t).toList,
      FSNode.name c1 = FSNode.name c2 → c1 = c2 := by
    intro c1 h1 c2 h2 heq
    exact List.inj_on_of_nodup_map hnodup h1 h2 heq
  rcases t with ⟨n, d, s, cs⟩
  refine ⟨?_, ?_, ?_, ?_, ?_, ?_⟩
  · intro hx
    rw [atomic_contents_add, if_pos hx]
  · intro hx
    rw [atomic_contents_add, if_neg (by simp [hx])]
    rfl
  · exact atomic_entries_not_excluded ⟨n, d, s, cs⟩ path excl arc
  · intro c hc hcx e he hctake
    rw [atomic_contents_add] at he
    by_cases hx : _is_excluded_by_filter path excl
    · rw [if_pos hx] at he
      simp at he
    · rw [if_neg hx] at he
      rcases List.mem_cons.mp he with h | h
      · subst h
        have : (path.take (path.length + 1)).length = (path ++ [c.name]).length := by
          rw [hctake]
        simp at this
      · rcases archiveChildren_attribution cs path excl arc e h with
          ⟨c1, hc1, htake, hx1, _⟩
        have hname : FSNode.name c1 = FSNode.name c := by
          have := htake.symm.trans hctake
          have h4 := List.append_cancel_left this
          simpa using h4
        have : c1 = c := hnameInj c1 hc1 c hc hname
        subst this
        rw [hx1] at hcx
        exact Bool.false_ne_true hcx
  · intro c hc hsym e he hbad
    rw [atomic_contents_add] at he
    by_cases hx : _is_excluded_by_filter path excl
    · rw [if_pos hx] at he
      simp at he
    · rw [if_neg hx] at he
      rcases List.mem_cons.mp he with h | h
      · subst h
        have hlen : (AddedEntry.mk path arc).src.length = path.length := rfl
        omega
      · rcases archiveChildren_attribution cs path excl arc e h with
          ⟨c1, hc1, htake, _, hor⟩
        have hname : FSNode.name c1 = FSNode.name c := by
          have := htake.symm.trans hbad.2
          have h4 := List.append_cancel_left this
          simpa using h4
        have hcc : c1 = c := hnameInj c1 hc1 c hc hname
        subst hcc
        rcases hor with hsrc | hdir
        · have : e.src.length = path.length + 1 := by
            rw [hsrc]
            simp
          omega
        · rw [hsym] at hdir
          simp at hdir
  · intro hx c hc hcx
    rw [atomic_contents_add, if_neg (by simp [hx])]
    rcases archiveChildren_child_present cs path excl arc c hc hcx with ⟨e, he, hsrc, harc⟩
    exact ⟨e, List.mem_cons.mpr (Or.inr he), hsrc, harc⟩

/-- Witness for C7: the scenario tree (a.txt file, b directory with
sub.txt, c symlink) with the exclusion list ["*.txt"]: only the root, the
empty directory b and the symlink c are archived. -/
theorem atomic_contents_add_spec_witness :
    ((sampleTree.children.toList.map FSNode.name).Nodup) ∧
    _is_excluded_by_filter ["orig"] ["*.txt"] = false ∧
    (atomic_contents_add sampleTree ["orig"] ["*.txt"] ".").head? =
      some ⟨["orig"], "."⟩ ∧
    atomic_contents_add sampleTree ["orig"] ["*.txt"] "." =
      [⟨["orig"], "."⟩, ⟨["orig", "b"], "b"⟩, ⟨["orig", "c"], "c"⟩] :=
  ⟨by decide, by decide,
   (atomic_contents_add_spec sampleTree ["orig"] ["*.txt"] "." (by decide)).2.1 (by decide),
   by decide⟩

end Securetar
